import Mathlib

/-!
Verification of the Ribbit virtual machine (src/host/rs/rvm-wo-markup.rs).

The Rust VM stores everything in a heap of three-field cells (ribs).  A field
is either a heap index or a signed machine integer.  This file gives a shallow
embedding of the data model, the stack operations, the compacting garbage
collector, the primitive operations, the bytecode integer decoder and the
garbage-collection schedule of the interpreter loop, and proves the claims of
the specification against those definitions.  Fallible Rust code (panics,
out-of-bounds indexing, `process::exit`) is modelled with `Option`: a `none`
result stands for abnormal termination.
-/

/-- A field of a rib: either a heap reference (index) or a machine integer
(`RibField` in the source, constructors `Rib` and `Number`). -/
inductive RibField where
  | Rib (i : Nat)
  | Number (n : Int)
deriving DecidableEq, Repr

/-- A heap cell with three fields (`Rib` in the source). -/
structure Rib where
  first : RibField
  middle : RibField
  last : RibField
deriving DecidableEq, Repr

/-- Object-kind tag for pairs (`PAIR` in the source). -/
def PAIR : Int := 0

/-- Object-kind tag for procedures (`PROCEDURE` in the source). -/
def PROCEDURE : Int := 1

/-- Object-kind tag for strings (`STRING` in the source). -/
def STRING : Int := 3

/-- Object-kind tag for the three singletons (`SPECIAL` in the source). -/
def SPECIAL : Int := 5

/-- The singleton rib used for `#f`, `#t` and `()` (`FALSE`, `TRUE`, `NIL`
in the source; all three are the cell `(0, 0, SPECIAL)`). -/
def SPECIAL_RIB : Rib := ⟨RibField.Number 0, RibField.Number 0, RibField.Number SPECIAL⟩

/-- Heap index of `#f` (`FALSE_REF` in the source). -/
def FALSE_REF : Nat := 0

/-- Heap index of `#t` (`TRUE_REF` in the source). -/
def TRUE_REF : Nat := 1

/-- Heap index of `()` (`NIL_REF` in the source). -/
def NIL_REF : Nat := 2

/-- The rib heap (`RibHeap` in the source): a growable vector of ribs. -/
abbrev Heap := List Rib

/-- `RibHeap::push_rib`: append a rib, returning its index and the new heap. -/
def push_rib (h : Heap) (r : Rib) : Nat × Heap := (h.length, h ++ [r])

/-- `RibField::get_rib`: dereference a field; a `Number` field panics. -/
def get_rib (x : RibField) (h : Heap) : Option Rib :=
  match x with
  | RibField.Rib i => h.get? i
  | RibField.Number _ => none

/-- `is_rib` from the source. -/
def is_rib (x : RibField) : Bool :=
  match x with
  | RibField.Rib _ => true
  | RibField.Number _ => false

/-- `to_bool` from the source: truth as a reference to `#t` or `#f`. -/
def to_bool (b : Bool) : RibField :=
  if b then RibField.Rib TRUE_REF else RibField.Rib FALSE_REF

/-- `push_stack`: allocate a pair cell `(x, stack, PAIR)` and point the stack
at it.  Returns the new stack pointer and heap. -/
def push_stack (x : RibField) (stack : Nat) (h : Heap) : Nat × Heap :=
  push_rib h ⟨x, RibField.Rib stack, RibField.Number PAIR⟩

/-- `pop_stack`: read `first` of the top cell and advance the stack pointer to
`middle` (which must be a reference; a `Number` there panics via
`get_rib_ref`).  Returns the popped value and the new stack pointer. -/
def pop_stack (stack : Nat) (h : Heap) : Option (RibField × Nat) :=
  match h.get? stack with
  | none => none
  | some r =>
    match r.middle with
    | RibField.Rib j => some (r.first, j)
    | RibField.Number _ => none

/-! ## Bytecode integer decoding (`get_code`, `get_int`) -/

/-- `get_code`: map one input byte to a code in `[0, 92]`; bytes below 35 are
mapped to 57. -/
def get_code (b : Nat) : Int :=
  if (b : Int) - 35 < 0 then 57 else (b : Int) - 35

/-- `get_int n`: read codes from the stream; a code below 46 terminates the
number as `46*n + code`, a code of 46 or more continues with accumulator
`46*n + (code - 46)`.  Running out of input panics (`none`). -/
def get_int (n : Int) (input : List Nat) : Option (Int × List Nat) :=
  match input with
  | [] => none
  | b :: rest =>
    let x := get_code b
    let n' := n * 46
    if x < 46 then some (n' + x, rest) else get_int (n' + x - 46) rest

/-- The closed form of the accumulator after consuming a run of continuation
codes: each code `x ≥ 46` folds as `n ↦ 46*n + (x - 46)`. -/
def contAccum (n : Int) (pre : List Nat) : Int :=
  pre.foldl (fun a b => 46 * a + (get_code b - 46)) n

/-! ## `getchar` (primitive 18) -/

/-- Model of `rvm_getchar`.  The input is `none` at end of input, otherwise
the available byte.  The Rust code reads into a one-byte zero-initialised
buffer (EOF leaves it `0`), converts it with `from_utf8` (which fails, hence
panics, for bytes ≥ 128), and pushes `-1` when the decoded character is NUL,
else the character code.  The result is the pushed value, `none` on panic. -/
def rvm_getchar (input : Option Nat) : Option Int :=
  let buf : Nat := match input with
    | none => 0
    | some b => b
  if buf < 128 then
    if buf = 0 then some (-1) else some (buf : Int)
  else none

/-! ## `putchar` (primitive 19) -/

/-- UTF-8 encoding of a Unicode scalar value, as produced by Rust's
`char::to_string` inside `putchar`. -/
def utf8Encode (c : Nat) : List Nat :=
  if c < 128 then [c]
  else if c < 2048 then [192 + c / 64, 128 + c % 64]
  else if c < 65536 then [224 + c / 4096, 128 + (c / 64) % 64, 128 + c % 64]
  else [240 + c / 262144, 128 + (c / 4096) % 64, 128 + (c / 64) % 64, 128 + c % 64]

/-- Valid argument of `char::from_u32`: a Unicode scalar value (not a
surrogate, at most 0x10FFFF). -/
def isValidCharCode (c : Nat) : Bool := c < 55296 || (57344 ≤ c && c < 1114112)

/-- Model of primitive 19's body: take the popped field, panic if it is a
reference (`get_number`) or if `as u32` of it is not a scalar value
(`char::from_u32(...).expect`), otherwise emit the UTF-8 bytes of the
character (`putchar` writes `c.to_string().as_bytes()`) and return the value
pushed back on the stack. -/
def rvm_putchar (x : RibField) : Option (List Nat × RibField) :=
  match x with
  | RibField.Rib _ => none
  | RibField.Number n =>
    let u : Nat := (n % 4294967296).toNat
    if isValidCharCode u then some (utf8Encode u, RibField.Number (u : Int))
    else none

/-! ## Primitive dispatch (`primitives` and its call site) -/

/-- The effect selected by each arm of the `match` in `primitives`. -/
inductive PrimAction where
  | rib | id | arg1 | arg2 | close | isRib
  | field0 | field1 | field2 | setField0 | setField1 | setField2
  | eqv | lt | add | sub | mul | div
  | getchar | putchar | list | exitP
deriving DecidableEq, Repr

/-- The `match code` dispatch of `primitives`: arms `0..=21` select an
action, any other byte panics (`none`). -/
def primitives (code : Nat) : Option PrimAction :=
  match code with
  | 0 => some PrimAction.rib
  | 1 => some PrimAction.id
  | 2 => some PrimAction.arg1
  | 3 => some PrimAction.arg2
  | 4 => some PrimAction.close
  | 5 => some PrimAction.isRib
  | 6 => some PrimAction.field0
  | 7 => some PrimAction.field1
  | 8 => some PrimAction.field2
  | 9 => some PrimAction.setField0
  | 10 => some PrimAction.setField1
  | 11 => some PrimAction.setField2
  | 12 => some PrimAction.eqv
  | 13 => some PrimAction.lt
  | 14 => some PrimAction.add
  | 15 => some PrimAction.sub
  | 16 => some PrimAction.mul
  | 17 => some PrimAction.div
  | 18 => some PrimAction.getchar
  | 19 => some PrimAction.putchar
  | 20 => some PrimAction.list
  | 21 => some PrimAction.exitP
  | _ => none

/-- Rust's `as u8` cast of an `i32`: truncation to the low eight bits. -/
def toU8 (k : Int) : Nat := (k % 256).toNat

/-- The call site `primitives(c.get_number() as u8, ...)`: the integer code
field of the callee is truncated to a byte before dispatch. -/
def callPrimitive (k : Int) : Option PrimAction := primitives (toU8 k)

/-! ## Claim C8: variable-length integer decoding -/

/-- C8: for every code stream consisting of continuation codes (each at least
46 after `get_code`) followed by a terminating code (below 46), `get_int n`
consumes exactly that prefix and returns `46*a + t` where `a` is the
accumulator folded over the continuation codes by `a ↦ 46*a + (x - 46)` and
`t` is the terminating code. -/
theorem get_int_spec (pre : List Nat) (t : Nat) (rest : List Nat) (n : Int)
    (hpre : ∀ b ∈ pre, 46 ≤ get_code b) (ht : get_code t < 46) :
    get_int n (pre ++ t :: rest) =
      some (46 * contAccum n pre + get_code t, rest) := by
  revert hpre
  induction pre generalizing n with
  | nil =>
    intro _
    simp only [List.nil_append, get_int, contAccum, List.foldl_nil]
    rw [if_pos ht, Int.mul_comm]
  | cons b pre ih =>
    intro hpre
    have hb : 46 ≤ get_code b := hpre b (List.mem_cons_self b pre)
    have hrest : ∀ x ∈ pre, 46 ≤ get_code x := fun x hx => hpre x (List.mem_cons_of_mem b hx)
    simp only [List.cons_append, get_int]
    rw [if_neg (by omega)]
    rw [List.append_eq, ih _ hrest]
    simp only [contAccum, List.foldl_cons]
    have h46 : n * 46 + get_code b - 46 = 46 * n + (get_code b - 46) := by ring
    rw [h46]

/-- Witness for C8 at a concrete stream: bytes `[100, 40, 7]` decode as one
continuation code then a terminator, yielding `46*(46*0 + (65-46)) + 5 = 879`
with the byte `7` left over. -/
theorem get_int_spec_witness :
    (∀ b ∈ [(100 : Nat)], 46 ≤ get_code b) ∧ get_code 40 < 46 ∧
      get_int 0 ([100] ++ 40 :: [7]) = some (46 * contAccum 0 [100] + get_code 40, [7]) :=
  ⟨by decide, by decide, get_int_spec [100] 40 [7] 0 (by decide) (by decide)⟩

/-! ## Claim C3: `getchar` -/

/-- C3 as stated is false: a NUL byte (code 0) available on standard input is
pushed as `-1`, not as its code `0`, because the implementation cannot tell a
zero-filled buffer after EOF from a read NUL byte. -/
theorem rvm_getchar_counterexample :
    rvm_getchar (some 0) = some (-1) ∧ rvm_getchar (some 0) ≠ some 0 := by
  constructor
  · rfl
  · decide

/-- C3 amended: at end of input `-1` is pushed; an available byte in
`1..=127` is pushed as its code; an available byte `0` is also pushed as `-1`
(conflated with EOF); an available byte of 128 or more panics (invalid
one-byte UTF-8), so no value is pushed. -/
theorem rvm_getchar_spec (b : Nat) :
    rvm_getchar none = some (-1) ∧
    (1 ≤ b → b < 128 → rvm_getchar (some b) = some (b : Int)) ∧
    rvm_getchar (some 0) = some (-1) ∧
    (128 ≤ b → rvm_getchar (some b) = none) := by
  refine ⟨rfl, fun h1 h2 => ?_, rfl, fun h => ?_⟩
  · show (if b < 128 then if b = 0 then some (-1) else some ((b : Int)) else none) = some ((b : Int))
    rw [if_pos h2, if_neg (by omega)]
  · show (if b < 128 then if b = 0 then some (-1) else some ((b : Int)) else none) = none
    rw [if_neg (by omega)]

/-- Witness for C3 at byte 65: its code is pushed unchanged. -/
theorem rvm_getchar_spec_witness :
    rvm_getchar (some 65) = some 65 :=
  (rvm_getchar_spec 65).2.1 (by decide) (by decide)

/-! ## Claim C4: primitive dispatch for out-of-range codes -/

/-- C4 as stated is false: the callee code 256 lies outside `0..20`, yet the
dispatch truncates it to the byte 0 and performs primitive 0 (`rib`) rather
than panicking. -/
theorem callPrimitive_counterexample :
    (256 : Int) > 20 ∧ callPrimitive 256 = some PrimAction.rib := by
  constructor
  · decide
  · rfl

set_option maxRecDepth 4096 in
/-- For every byte value the dispatch panics exactly above arm 21. -/
theorem primitives_none_iff : ∀ m : Nat, m < 256 → (primitives m = none ↔ 21 < m) := by
  decide

/-- C4 amended: the call site truncates the code field to its low byte
(`as u8`), and the dispatch panics exactly when that byte exceeds 21.  In
particular a code outside `0..20` whose residue modulo 256 is at most 21
(such as 256, or 21 itself, which runs the `exit` primitive) does not panic. -/
theorem callPrimitive_spec (k : Int) :
    callPrimitive k = none ↔ 21 < toU8 k := by
  have hlt : toU8 k < 256 := by
    simp only [toU8]
    omega
  exact primitives_none_iff (toU8 k) hlt

/-- Witness for C4: code 300 truncates to byte 44, which is above 21, so the
dispatch panics. -/
theorem callPrimitive_spec_witness :
    callPrimitive 300 = none ↔ 21 < toU8 300 :=
  callPrimitive_spec 300

/-! ## Stack primitives (`rvm_prim1`, `rvm_prim2`, `rvm_prim3` and the arms
of `primitives` the claims are about) -/

/-- `rvm_prim1`: exit unless `nargs = 1` (`incoherent_nargs_stop`), pop one
value, run the body (which may allocate or mutate), push its result. -/
def rvm_prim1 (nargs : Int) (f : RibField → Heap → Option (RibField × Heap))
    (stack : Nat) (h : Heap) : Option (Nat × Heap) :=
  if nargs = 1 then
    match pop_stack stack h with
    | none => none
    | some (x, s1) =>
      match f x h with
      | none => none
      | some (r, h') => some (push_stack r s1 h')
  else none

/-- `rvm_prim2`: exit unless `nargs = 2`, pop two values, run the body, push
its result. -/
def rvm_prim2 (nargs : Int) (f : RibField → RibField → Heap → Option (RibField × Heap))
    (stack : Nat) (h : Heap) : Option (Nat × Heap) :=
  if nargs = 2 then
    match pop_stack stack h with
    | none => none
    | some (x, s1) =>
      match pop_stack s1 h with
      | none => none
      | some (y, s2) =>
        match f x y h with
        | none => none
        | some (r, h') => some (push_stack r s2 h')
  else none

/-- `rvm_prim3`: exit unless `nargs = 3`, pop three values, run the body,
push its result. -/
def rvm_prim3 (nargs : Int) (f : RibField → RibField → RibField → Heap → Option (RibField × Heap))
    (stack : Nat) (h : Heap) : Option (Nat × Heap) :=
  if nargs = 3 then
    match pop_stack stack h with
    | none => none
    | some (x, s1) =>
      match pop_stack s1 h with
      | none => none
      | some (y, s2) =>
        match pop_stack s2 h with
        | none => none
        | some (z, s3) =>
          match f x y z h with
          | none => none
          | some (r, h') => some (push_stack r s3 h')
  else none

/-- Primitive 0 (`rib`): its closure names the three popped values `z`, `y`,
`x` in pop order and allocates the cell `(x, y, z)`. -/
def prim_rib (nargs : Int) (stack : Nat) (h : Heap) : Option (Nat × Heap) :=
  rvm_prim3 nargs (fun z y x hh =>
    let p := push_rib hh ⟨x, y, z⟩
    some (RibField.Rib p.1, p.2)) stack h

/-- Primitive 2 (`arg1`): check `nargs = 2`, then pop a single value and
discard it; nothing is pushed and the heap is not touched. -/
def prim_arg1 (nargs : Int) (stack : Nat) (h : Heap) : Option (Nat × Heap) :=
  if nargs = 2 then (pop_stack stack h).map (fun p => (p.2, h)) else none

/-- Primitive 6 (`field0`): push `first` of the dereferenced top. -/
def prim_field0 (nargs : Int) (stack : Nat) (h : Heap) : Option (Nat × Heap) :=
  rvm_prim1 nargs (fun x hh => (get_rib x hh).map (fun r => (r.first, hh))) stack h

/-- Primitive 7 (`field1`): push `middle` of the dereferenced top. -/
def prim_field1 (nargs : Int) (stack : Nat) (h : Heap) : Option (Nat × Heap) :=
  rvm_prim1 nargs (fun x hh => (get_rib x hh).map (fun r => (r.middle, hh))) stack h

/-- Primitive 8 (`field2`): push `last` of the dereferenced top. -/
def prim_field2 (nargs : Int) (stack : Nat) (h : Heap) : Option (Nat × Heap) :=
  rvm_prim1 nargs (fun x hh => (get_rib x hh).map (fun r => (r.last, hh))) stack h

/-- `PartialOrd for RibField`: equal fields compare `Equal`; otherwise any
reference operand makes the comparison undefined (`None`); two numbers
compare as integers. -/
def field_cmp (a b : RibField) : Option Ordering :=
  if a = b then some Ordering.eq
  else
    match a with
    | RibField.Rib _ => none
    | RibField.Number n =>
      match b with
      | RibField.Rib _ => none
      | RibField.Number m =>
        some (if n < m then Ordering.lt else if n = m then Ordering.eq else Ordering.gt)

/-- Rust's `a < b` derived from `partial_cmp`: true exactly on `Some(Less)`. -/
def field_lt (a b : RibField) : Bool := field_cmp a b = some Ordering.lt

/-- Primitive 13 (`<`): its closure names the popped values `y`, `x` in pop
order and pushes `to_bool(x < y)`. -/
def prim_lt (nargs : Int) (stack : Nat) (h : Heap) : Option (Nat × Heap) :=
  rvm_prim2 nargs (fun y x hh => some (to_bool (field_lt x y), hh)) stack h

/-! ## Claim C6: `putchar` -/

/-- C6 as stated is false: the integer code 256 denotes the representable
character U+0100, yet `putchar` writes its two-byte UTF-8 encoding
`[196, 128]`, not exactly one byte. -/
theorem rvm_putchar_counterexample :
    rvm_putchar (RibField.Number 256) = some ([196, 128], RibField.Number 256) ∧
      ([196, 128] : List Nat).length ≠ 1 := by
  constructor
  · rfl
  · decide

/-- C6 amended: for a nonnegative integer code that is a Unicode scalar
value, primitive 19 writes the UTF-8 encoding of that character (exactly one
byte only when the code is below 128), flushes, and pushes the same code
back on the stack. -/
theorem rvm_putchar_spec (n : Int) (hn : 0 ≤ n)
    (hv : isValidCharCode n.toNat = true) :
    rvm_putchar (RibField.Number n) = some (utf8Encode n.toNat, RibField.Number n) ∧
      ((utf8Encode n.toNat).length = 1 ↔ n < 128) := by
  have hlt : n < 4294967296 := by
    simp only [isValidCharCode, Bool.or_eq_true, decide_eq_true_eq,
      Bool.and_eq_true] at hv
    omega
  have hmod : n % 4294967296 = n := Int.emod_eq_of_lt hn hlt
  constructor
  · simp only [rvm_putchar, hmod]
    rw [if_pos hv]
    rw [Int.toNat_of_nonneg hn]
  · by_cases hc : n.toNat < 128
    · constructor
      · intro _
        omega
      · intro _
        simp [utf8Encode, hc]
    · have h1 : ¬ n < 128 := by omega
      simp only [h1, iff_false]
      simp only [utf8Encode, if_neg hc]
      by_cases h2 : n.toNat < 2048
      · simp [h2]
      · by_cases h3 : n.toNat < 65536 <;> simp [h2, h3]

/-- Witness for C6 at code 65: one byte `[65]` is written and 65 pushed. -/
theorem rvm_putchar_spec_witness :
    rvm_putchar (RibField.Number 65) = some (utf8Encode (Int.toNat 65), RibField.Number 65) ∧
      ((utf8Encode (Int.toNat 65)).length = 1 ↔ (65 : Int) < 128) :=
  rvm_putchar_spec 65 (by decide) (by decide)

/-! ## Claim C5: primitive 2 (`arg1`) -/

/-- C5: with `nargs = 2` and at least two values on the stack, primitive 2
removes exactly the previous top, pushes nothing (the stack pointer moves to
the second cell, so the previous second value is the new top), and returns
the heap unchanged (no cell is mutated). -/
theorem prim_arg1_spec (stack s1 : Nat) (x tg : RibField) (r1 : Rib) (h : Heap)
    (hs : h.get? stack = some ⟨x, RibField.Rib s1, tg⟩)
    (hs1 : h.get? s1 = some r1) :
    prim_arg1 2 stack h = some (s1, h) ∧
      (h.get? s1).map Rib.first = some r1.first := by
  have e1 : pop_stack stack h = some (x, s1) := by
    simp only [pop_stack, hs]
  constructor
  · simp only [prim_arg1, e1, Option.map_some]
    rfl
  · rw [hs1]
    rfl

/-- A concrete five-cell heap: two stack cells above the singletons. -/
def argHeap : Heap :=
  [SPECIAL_RIB, SPECIAL_RIB, SPECIAL_RIB,
    ⟨RibField.Number 7, RibField.Rib 4, RibField.Number 0⟩,
    ⟨RibField.Number 8, RibField.Rib 2, RibField.Number 0⟩]

/-- Witness for C5 on the concrete heap `argHeap`. -/
theorem prim_arg1_spec_witness :
    prim_arg1 2 3 argHeap = some (4, argHeap) ∧
      (argHeap.get? 4).map Rib.first =
        some (Rib.first ⟨RibField.Number 8, RibField.Rib 2, RibField.Number 0⟩) :=
  prim_arg1_spec 3 4 (RibField.Number 7) (RibField.Number 0)
    ⟨RibField.Number 8, RibField.Rib 2, RibField.Number 0⟩ argHeap (by rfl) (by rfl)

/-! ## Claim C9: primitive 13 (`<`) -/

/-- C9: primitive 13 is total on any two-deep stack: it always pushes a
boolean.  For two integer operands the pushed value is `#t` exactly when the
second-popped value is less than the first-popped value; as soon as either
operand is a reference (equal or not) the pushed value is `#f`. -/
theorem prim_lt_spec (stack s1 s2 : Nat) (v1 v2 t1 t2 : RibField) (h : Heap)
    (hs : h.get? stack = some ⟨v1, RibField.Rib s1, t1⟩)
    (hs1 : h.get? s1 = some ⟨v2, RibField.Rib s2, t2⟩) :
    prim_lt 2 stack h = some (push_stack (to_bool (field_lt v2 v1)) s2 h) ∧
    (∀ n m : Int, v1 = RibField.Number n → v2 = RibField.Number m →
      to_bool (field_lt v2 v1) = to_bool (decide (m < n))) ∧
    ((is_rib v1 = true ∨ is_rib v2 = true) →
      to_bool (field_lt v2 v1) = RibField.Rib FALSE_REF) := by
  have e1 : pop_stack stack h = some (v1, s1) := by
    simp only [pop_stack, hs]
  have e2 : pop_stack s1 h = some (v2, s2) := by
    simp only [pop_stack, hs1]
  refine ⟨?_, ?_, ?_⟩
  · simp only [prim_lt, rvm_prim2, e1, e2]
    rfl
  · rintro n m rfl rfl
    by_cases hnm : m = n
    · subst hnm
      simp [field_lt, field_cmp, to_bool]
    · simp only [field_lt, field_cmp]
      rw [if_neg (by simp [hnm])]
      by_cases hlt : m < n
      · simp [hlt]
      · by_cases heq : m = n
        · exact absurd heq hnm
        · simp [hlt, heq]
  · intro hrib
    rcases hrib with h1 | h2
    · match v1, h1 with
      | RibField.Rib i, _ =>
        by_cases he : v2 = RibField.Rib i
        · subst he
          simp [field_lt, field_cmp, to_bool]
        · cases v2 with
          | Rib j =>
            simp only [field_lt, field_cmp]
            rw [if_neg he]
            simp [to_bool]
          | Number m =>
            simp only [field_lt, field_cmp]
            rw [if_neg he]
            simp [to_bool]
    · match v2, h2 with
      | RibField.Rib i, _ =>
        by_cases he : RibField.Rib i = v1
        · rw [← he]
          simp [field_lt, field_cmp, to_bool]
        · simp only [field_lt, field_cmp]
          rw [if_neg he]
          simp [to_bool]

/-- A concrete heap with a reference on top of the stack and a number below. -/
def ltHeap : Heap :=
  [SPECIAL_RIB, SPECIAL_RIB, SPECIAL_RIB,
    ⟨RibField.Rib 0, RibField.Rib 4, RibField.Number 0⟩,
    ⟨RibField.Number 5, RibField.Rib 2, RibField.Number 0⟩]

/-- Witness for C9 on the concrete heap `ltHeap`: comparing a reference with
a number pushes `#f`. -/
theorem prim_lt_spec_witness :
    prim_lt 2 3 ltHeap =
      some (push_stack (to_bool (field_lt (RibField.Number 5) (RibField.Rib 0))) 2 ltHeap) ∧
    to_bool (field_lt (RibField.Number 5) (RibField.Rib 0)) = RibField.Rib FALSE_REF :=
  ⟨(prim_lt_spec 3 4 2 (RibField.Rib 0) (RibField.Number 5) (RibField.Number 0)
      (RibField.Number 0) ltHeap (by rfl) (by rfl)).1,
   (prim_lt_spec 3 4 2 (RibField.Rib 0) (RibField.Number 5) (RibField.Number 0)
      (RibField.Number 0) ltHeap (by rfl) (by rfl)).2.2 (Or.inl (by rfl))⟩

/-! ## Claim C7: round-trip rib law -/

/-- The value on top of the stack of a primitive's result state. -/
def runTop (r : Option (Nat × Heap)) : Option RibField :=
  match r with
  | none => none
  | some (s, hh) => (hh.get? s).map Rib.first

/-- C7: with fields `a`, `b`, `c` pushed (`c` last), primitive 0 allocates a
new rib whose `first`, `middle`, `last` fields are `a`, `b`, `c`, and pushes
a reference to it; primitives 6, 7 and 8 applied to that reference then
return `a`, `b` and `c` respectively. -/
theorem rib_roundtrip (a b c : RibField) (stack s1 s2 s3 : Nat)
    (t1 t2 t3 : RibField) (h : Heap)
    (hs : h.get? stack = some ⟨c, RibField.Rib s1, t1⟩)
    (hs1 : h.get? s1 = some ⟨b, RibField.Rib s2, t2⟩)
    (hs2 : h.get? s2 = some ⟨a, RibField.Rib s3, t3⟩) :
    prim_rib 3 stack h =
      some (push_stack (RibField.Rib h.length) s3 (h ++ [(⟨a, b, c⟩ : Rib)])) ∧
    (h ++ [(⟨a, b, c⟩ : Rib)]).get? h.length = some ⟨a, b, c⟩ ∧
    runTop (prim_rib 3 stack h) = some (RibField.Rib h.length) ∧
    runTop (prim_field0 1 (push_stack (RibField.Rib h.length) s3 (h ++ [(⟨a, b, c⟩ : Rib)])).1
      (push_stack (RibField.Rib h.length) s3 (h ++ [(⟨a, b, c⟩ : Rib)])).2) = some a ∧
    runTop (prim_field1 1 (push_stack (RibField.Rib h.length) s3 (h ++ [(⟨a, b, c⟩ : Rib)])).1
      (push_stack (RibField.Rib h.length) s3 (h ++ [(⟨a, b, c⟩ : Rib)])).2) = some b ∧
    runTop (prim_field2 1 (push_stack (RibField.Rib h.length) s3 (h ++ [(⟨a, b, c⟩ : Rib)])).1
      (push_stack (RibField.Rib h.length) s3 (h ++ [(⟨a, b, c⟩ : Rib)])).2) = some c := by
  have e1 : pop_stack stack h = some (c, s1) := by
    simp only [pop_stack, hs]
  have e2 : pop_stack s1 h = some (b, s2) := by
    simp only [pop_stack, hs1]
  have e3 : pop_stack s2 h = some (a, s3) := by
    simp only [pop_stack, hs2]
  have erib : prim_rib 3 stack h =
      some (push_stack (RibField.Rib h.length) s3 (h ++ [(⟨a, b, c⟩ : Rib)])) := by
    simp only [prim_rib, rvm_prim3, e1, e2, e3, push_rib]
    rfl
  have hnew : (h ++ [(⟨a, b, c⟩ : Rib)]).get? h.length = some ⟨a, b, c⟩ :=
    List.get?_concat_length h (⟨a, b, c⟩ : Rib)
  have hcell : ((h ++ [(⟨a, b, c⟩ : Rib)]) ++
        [(⟨RibField.Rib h.length, RibField.Rib s3, RibField.Number PAIR⟩ : Rib)]).get?
        (h ++ [(⟨a, b, c⟩ : Rib)]).length =
      some ⟨RibField.Rib h.length, RibField.Rib s3, RibField.Number PAIR⟩ :=
    List.get?_concat_length (h ++ [(⟨a, b, c⟩ : Rib)])
      (⟨RibField.Rib h.length, RibField.Rib s3, RibField.Number PAIR⟩ : Rib)
  have hstk : push_stack (RibField.Rib h.length) s3 (h ++ [(⟨a, b, c⟩ : Rib)]) =
      ((h ++ [(⟨a, b, c⟩ : Rib)]).length,
        (h ++ [(⟨a, b, c⟩ : Rib)]) ++
          [(⟨RibField.Rib h.length, RibField.Rib s3, RibField.Number PAIR⟩ : Rib)]) := rfl
  have hnew2 : ((h ++ [(⟨a, b, c⟩ : Rib)]) ++
        [(⟨RibField.Rib h.length, RibField.Rib s3, RibField.Number PAIR⟩ : Rib)]).get?
        h.length = some ⟨a, b, c⟩ := by
    rw [List.get?_append (by simp)]
    exact hnew
  have epop : pop_stack ((h ++ [(⟨a, b, c⟩ : Rib)]).length)
      ((h ++ [(⟨a, b, c⟩ : Rib)]) ++
        [(⟨RibField.Rib h.length, RibField.Rib s3, RibField.Number PAIR⟩ : Rib)]) =
      some (RibField.Rib h.length, s3) := by
    simp only [pop_stack, hcell]
  refine ⟨erib, hnew, ?_, ?_, ?_, ?_⟩
  · rw [erib]
    simp only [runTop, hstk, hcell]
    rfl
  · simp only [hstk, prim_field0, rvm_prim1, if_true, eq_self_iff_true, epop, get_rib, hnew2,
      Option.map_some', runTop, push_stack, push_rib, List.get?_concat_length]
  · simp only [hstk, prim_field1, rvm_prim1, if_true, eq_self_iff_true, epop, get_rib, hnew2,
      Option.map_some', runTop, push_stack, push_rib, List.get?_concat_length]
  · simp only [hstk, prim_field2, rvm_prim1, if_true, eq_self_iff_true, epop, get_rib, hnew2,
      Option.map_some', runTop, push_stack, push_rib, List.get?_concat_length]

/-- A concrete heap whose stack holds the fields 7, 8, 9 (9 on top). -/
def ribHeap : Heap :=
  [SPECIAL_RIB, SPECIAL_RIB, SPECIAL_RIB,
    ⟨RibField.Number 9, RibField.Rib 4, RibField.Number 0⟩,
    ⟨RibField.Number 8, RibField.Rib 5, RibField.Number 0⟩,
    ⟨RibField.Number 7, RibField.Rib 2, RibField.Number 0⟩]

/-- Witness for C7 on the concrete heap `ribHeap`. -/
theorem rib_roundtrip_witness :
    runTop (prim_rib 3 3 ribHeap) = some (RibField.Rib ribHeap.length) ∧
    runTop (prim_field0 1
      (push_stack (RibField.Rib ribHeap.length) 2
        (ribHeap ++ [⟨RibField.Number 7, RibField.Number 8, RibField.Number 9⟩])).1
      (push_stack (RibField.Rib ribHeap.length) 2
        (ribHeap ++ [⟨RibField.Number 7, RibField.Number 8, RibField.Number 9⟩])).2) =
      some (RibField.Number 7) :=
  ⟨(rib_roundtrip (RibField.Number 7) (RibField.Number 8) (RibField.Number 9)
      3 4 5 2 (RibField.Number 0) (RibField.Number 0) (RibField.Number 0) ribHeap
      (by rfl) (by rfl) (by rfl)).2.2.1,
   (rib_roundtrip (RibField.Number 7) (RibField.Number 8) (RibField.Number 9)
      3 4 5 2 (RibField.Number 0) (RibField.Number 0) (RibField.Number 0) ribHeap
      (by rfl) (by rfl) (by rfl)).2.2.2.1⟩

/-! ## Claim C1: the variadic rest-list loop of call/jump -/

/-- Wrap-around arithmetic of a 32-bit signed counter (the loop counter `i`
in the variadic branch is an `i32`). -/
def wrap32 (n : Int) : Int := (n + 2147483648) % 4294967296 - 2147483648

/-- The rest-list construction loop of the variadic branch of call/jump in
`run_rvm`, as written in the source: while `i < nargs`, pop one argument
from the caller's stack, push it onto the rest list, and decrement `i`
(`i -= 1`).  `fuel` bounds the number of iterations modelled; popping a cell
whose `middle` is a number panics (`none`). -/
def variadicConsLoop (fuel : Nat) (i nargs : Int) (stack rest : Nat) (h : Heap) :
    Option (Nat × Nat × Heap) :=
  match fuel with
  | 0 => none
  | Nat.succ fuel =>
    if i < nargs then
      match pop_stack stack h with
      | none => none
      | some (arg, s1) =>
        let p := push_stack arg rest h
        variadicConsLoop fuel (wrap32 (i - 1)) nargs s1 p.1 p.2
    else some (stack, rest, h)

/-- Modelled from the C reference implementation quoted in the source's own
comment directly above the loop (`for(int i = 0; i < nargs; ++i) ...`): the
same loop with the counter incremented instead of decremented. -/
def variadicConsLoopRef (fuel : Nat) (i nargs : Int) (stack rest : Nat) (h : Heap) :
    Option (Nat × Nat × Heap) :=
  match fuel with
  | 0 => none
  | Nat.succ fuel =>
    if i < nargs then
      match pop_stack stack h with
      | none => none
      | some (arg, s1) =>
        let p := push_stack arg rest h
        variadicConsLoopRef fuel (wrap32 (i + 1)) nargs s1 p.1 p.2
    else some (stack, rest, h)

/-- A concrete caller stack for a variadic call with one trailing argument
(value 10): the argument cell at index 3, the caller's continuation frame at
index 4 (its `middle` is a number, so popping past it panics), a halt
instruction at index 5. -/
def variadicHeap : Heap :=
  [SPECIAL_RIB, SPECIAL_RIB, SPECIAL_RIB,
    ⟨RibField.Number 10, RibField.Rib 4, RibField.Number 0⟩,
    ⟨RibField.Number 0, RibField.Number 0, RibField.Rib 5⟩,
    ⟨RibField.Number 5, RibField.Number 0, RibField.Number 0⟩]

/-- C1 fails on the code: with `nparams = 0` and `nargs = 1` (so one trailing
argument is available, followed by the caller's frame), the loop as written
never finishes consing the rest list: after consuming the one argument the
decremented counter is still below `nargs`, so the loop pops again and
panics on the frame cell; ten iterations of fuel are already more than the
single iteration the reference C loop (quoted in the source's comment)
needs, and that reference loop terminates with the rest list `(10)` and the
stack correctly positioned at the frame. -/
theorem variadic_rest_divergence :
    variadicConsLoop 10 0 1 3 NIL_REF variadicHeap = none ∧
    variadicConsLoopRef 10 0 1 3 NIL_REF variadicHeap =
      some (4, variadicHeap.length,
        variadicHeap ++ [(⟨RibField.Number 10, RibField.Rib NIL_REF, RibField.Number PAIR⟩ : Rib)]) ∧
    ((variadicHeap ++
        [(⟨RibField.Number 10, RibField.Rib NIL_REF, RibField.Number PAIR⟩ : Rib)]).get?
          variadicHeap.length).map Rib.first = some (RibField.Number 10) := by
  refine ⟨?_, ?_, ?_⟩ <;> rfl

/-! ## Claim C10: the garbage-collection schedule of `run_rvm` -/

/-- Events observed at the top level of `run_rvm`: end of bytecode decoding,
one garbage collection (recording the last post-collection size and the heap
length when invoked), and the dispatch of one instruction (recording the
heap length after it). -/
inductive VmEvent where
  | decodeDone (heapLen : Nat)
  | gcRun (lastSize heapLen : Nat)
  | instrDone (heapLen : Nat)
deriving DecidableEq, Repr

/-- The interpreter loop's collection schedule.  The effect of one
instruction dispatch on the heap length is abstracted as `stepLen` (a
function of the remaining fuel and the current length) and the compaction of
a collection as `gcLen`, so the schedule is proved for every possible
program.  After each instruction the collector runs exactly when
`2 * size_of_heap < heap.len()`, where `size_of_heap` is the length returned
by the previous collection, and both are then reset to the collector's
result. -/
def interpLoop (stepLen : Nat → Nat → Nat) (gcLen : Nat → Nat) :
    Nat → Nat → Nat → List VmEvent
  | 0, _, _ => []
  | Nat.succ fuel, sizeOfHeap, heapLen =>
    let len1 := stepLen fuel heapLen
    if 2 * sizeOfHeap < len1 then
      VmEvent.instrDone len1 :: VmEvent.gcRun sizeOfHeap len1 ::
        interpLoop stepLen gcLen fuel (gcLen len1) (gcLen len1)
    else
      VmEvent.instrDone len1 :: interpLoop stepLen gcLen fuel sizeOfHeap len1

/-- The top level of `run_rvm` after decoding: record the decode-time heap
length into `size_of_heap`, run the collector once with no condition, then
enter the dispatch loop with `size_of_heap` set to the collector's result. -/
def run_rvm_events (stepLen : Nat → Nat → Nat) (gcLen : Nat → Nat)
    (decodeLen fuel : Nat) : List VmEvent :=
  VmEvent.decodeDone decodeLen :: VmEvent.gcRun decodeLen decodeLen ::
    interpLoop stepLen gcLen fuel (gcLen decodeLen) (gcLen decodeLen)

/-- C10: for every program behaviour (every `stepLen`/`gcLen`), the trace of
`run_rvm` shows exactly one collection between the end of decoding and the
first instruction dispatch, run unconditionally (its recorded pre-state does
not satisfy the doubling trigger, since `2*d < d` never holds), and inside
the loop every collection event happens only when the heap length strictly
exceeds twice the last post-collection size. -/
theorem gc_schedule_spec (stepLen : Nat → Nat → Nat) (gcLen : Nat → Nat)
    (decodeLen fuel : Nat) :
    (run_rvm_events stepLen gcLen decodeLen fuel =
      VmEvent.decodeDone decodeLen :: VmEvent.gcRun decodeLen decodeLen ::
        interpLoop stepLen gcLen fuel (gcLen decodeLen) (gcLen decodeLen)) ∧
    (∀ f sz len, interpLoop stepLen gcLen f sz len = [] ∨
      ∃ l tail, interpLoop stepLen gcLen f sz len = VmEvent.instrDone l :: tail) ∧
    (∀ f sz len s l, VmEvent.gcRun s l ∈ interpLoop stepLen gcLen f sz len →
      2 * s < l) := by
  refine ⟨rfl, ?_, ?_⟩
  · intro f sz len
    match f with
    | 0 => exact Or.inl rfl
    | Nat.succ f =>
      right
      simp only [interpLoop]
      split
      · exact ⟨_, _, rfl⟩
      · exact ⟨_, _, rfl⟩
  · intro f
    induction f with
    | zero =>
      intro sz len s l hmem
      simp only [interpLoop, List.not_mem_nil] at hmem
    | succ f ih =>
      intro sz len s l hmem
      simp only [interpLoop] at hmem
      by_cases hcond : 2 * sz < stepLen f len
      · rw [if_pos hcond] at hmem
        simp only [List.mem_cons] at hmem
        rcases hmem with hmem | hmem | hmem
        · exact absurd hmem (by simp)
        · injection hmem with h1 h2
          subst h1
          subst h2
          exact hcond
        · exact ih _ _ _ _ hmem
      · rw [if_neg hcond] at hmem
        simp only [List.mem_cons] at hmem
        rcases hmem with hmem | hmem
        · exact absurd hmem (by simp)
        · exact ih _ _ _ _ hmem

/-- Witness for C10 at a concrete program behaviour: one step growing the
heap from 2 to 5 with last size 2 triggers a collection, and the theorem
yields the doubling fact. -/
theorem gc_schedule_spec_witness :
    run_rvm_events (fun _ l => l + 3) (fun _ => 2) 5 1 =
      VmEvent.decodeDone 5 :: VmEvent.gcRun 5 5 ::
        interpLoop (fun _ l => l + 3) (fun _ => 2) 1 2 2 ∧ 2 * 2 < 5 :=
  ⟨(gc_schedule_spec (fun _ l => l + 3) (fun _ => 2) 5 1).1,
   (gc_schedule_spec (fun _ l => l + 3) (fun _ => 2) 5 1).2.2 1 2 2 2 5 (by decide)⟩

/-! ## The garbage collector (`garbage_collect`, `scan_and_sweep`) -/

/-- The reference fields of a rib in field order (what
`scan_for_copiable_rib_refs` inspects). -/
def childRefs (r : Rib) : List Nat :=
  (match r.first with | RibField.Rib i => [i] | RibField.Number _ => []) ++
  (match r.middle with | RibField.Rib i => [i] | RibField.Number _ => []) ++
  (match r.last with | RibField.Rib i => [i] | RibField.Number _ => [])

/-- The forwarding map `index_correspondence` (a hash map in the source) as
an association list; a key is inserted only when absent, so the first
binding found is the binding. -/
abbrev Corr := List (Nat × Nat)

/-- Map lookup (`HashMap::get` / `contains_key`). -/
def corrLookup (k : Nat) : Corr → Option Nat
  | [] => none
  | (a, v) :: rest => if a = k then some v else corrLookup k rest

/-- The key set of the forwarding map. -/
def corrKeys (c : Corr) : List Nat := c.map Prod.fst

/-- The work-list loop of `scan_and_sweep`.  The `Vec` work list is kept
top-first (`push` is therefore a cons of the children in reverse field
order, `pop` takes the head).  While the list is non-empty: if the current
index has no forwarding entry, read its rib (out of bounds panics), push its
not-yet-forwarded children, record the forwarding entry at the next new-heap
position and append the copied rib; then pop the next index.  `fuel` bounds
the number of iterations modelled. -/
def sweepLoop (heap : Heap) : Nat → Nat → List Nat → Heap → Corr → Option (Heap × Corr)
  | 0, _, _, _, _ => none
  | Nat.succ fuel, idx, list, newHeap, corr =>
    match list with
    | [] => some (newHeap, corr)
    | _ :: _ =>
      match corrLookup idx corr with
      | some _ =>
        match list with
        | [] => some (newHeap, corr)
        | n :: rest => sweepLoop heap fuel n rest newHeap corr
      | none =>
        match heap.get? idx with
        | none => none
        | some r =>
          match ((childRefs r).filter (fun j => (corrLookup j corr).isNone)).reverse ++ list with
          | [] => some (newHeap ++ [r], (idx, newHeap.length) :: corr)
          | n :: rest =>
            sweepLoop heap fuel n rest (newHeap ++ [r]) ((idx, newHeap.length) :: corr)

/-- `scan_and_sweep`: rewrite the root through the forwarding map (an
absent root is about to be copied at the next new-heap position); if the
rewritten root is not that next position the root was already copied and
nothing is done, otherwise run the work-list loop starting from the root. -/
def scan_and_sweep (heap : Heap) (fuel : Nat) (start : Nat) (newHeap : Heap)
    (corr : Corr) : Option (Nat × Heap × Corr) :=
  let start1 := match corrLookup start corr with
    | none => newHeap.length
    | some v => v
  if start1 ≠ newHeap.length then some (start1, newHeap, corr)
  else
    match sweepLoop heap fuel start [start] newHeap corr with
    | none => none
    | some (nh, c) => some (start1, nh, c)

/-- The rewrite of one field in the final pass of `garbage_collect`: a
reference is sent through the forwarding map (a missing entry panics via
`unwrap`), a number is untouched. -/
def rewriteField (c : Corr) (x : RibField) : Option RibField :=
  match x with
  | RibField.Rib i =>
    match corrLookup i c with
    | none => none
    | some v => some (RibField.Rib v)
  | RibField.Number n => some (RibField.Number n)

/-- The rewrite of one copied rib. -/
def rewriteRib (c : Corr) (r : Rib) : Option Rib :=
  match rewriteField c r.first, rewriteField c r.middle, rewriteField c r.last with
  | some f, some m, some l => some ⟨f, m, l⟩
  | _, _, _ => none

/-- The rewrite pass over the new heap from index 3 upward (given here the
tail of the new heap after its first three cells). -/
def rewriteTail (c : Corr) : Heap → Option Heap
  | [] => some []
  | r :: rest =>
    match rewriteRib c r, rewriteTail c rest with
    | some r1, some rest1 => some (r1 :: rest1)
    | _, _ => none

/-- `garbage_collect`: copy the cells at indices 0, 1, 2 to the same indices
of the new heap and record their identity forwarding; scan and sweep the
roots in the order symbol table, program counter, stack (each only when in
bounds); rewrite every reference field of the new heap from index 3 upward
through the forwarding map; return the new heap, the rewritten roots, the
returned live size (`index`, which ends at the new heap's length) and the
forwarding map. -/
def garbage_collect (heap : Heap) (stack pc symtbl : Nat) (fuel : Nat) :
    Option (Heap × Nat × Nat × Nat × Nat × Corr) :=
  match heap.get? 0, heap.get? 1, heap.get? 2 with
  | some f, some t, some n =>
    match (if symtbl < heap.length
           then scan_and_sweep heap fuel symtbl [f, t, n] [(2, 2), (1, 1), (0, 0)]
           else some (symtbl, [f, t, n], [(2, 2), (1, 1), (0, 0)])) with
    | none => none
    | some (symtbl1, h1, c1) =>
      match (if pc < heap.length then scan_and_sweep heap fuel pc h1 c1
             else some (pc, h1, c1)) with
      | none => none
      | some (pc1, h2, c2) =>
        match (if stack < heap.length then scan_and_sweep heap fuel stack h2 c2
               else some (stack, h2, c2)) with
        | none => none
        | some (stack1, h3, c3) =>
          match rewriteTail c3 (h3.drop 3) with
          | none => none
          | some tail => some (h3.take 3 ++ tail, stack1, pc1, symtbl1, h3.length, c3)
  | _, _, _ => none

/-- Reachability through reference fields of the old heap. -/
inductive Reaches (heap : Heap) : Nat → Nat → Prop where
  | refl (i : Nat) : Reaches heap i i
  | step {i j k : Nat} {r : Rib} : Reaches heap i j → heap.get? j = some r →
      k ∈ childRefs r → Reaches heap i k

/-- Every reference field of every rib of the heap is in bounds. -/
def HeapClosed (heap : Heap) : Prop :=
  ∀ i r, heap.get? i = some r → ∀ j ∈ childRefs r, j < heap.length

/-- A key set closed under the child relation of the old heap. -/
def KeysClosed (heap : Heap) (K : List Nat) : Prop :=
  ∀ k ∈ K, ∀ r, heap.get? k = some r → ∀ j ∈ childRefs r, j ∈ K

/-- A key is absent from the map exactly when lookup fails. -/
theorem corrLookup_none_iff (k : Nat) (c : Corr) :
    corrLookup k c = none ↔ k ∉ corrKeys c := by
  induction c with
  | nil => simp [corrLookup, corrKeys]
  | cons p c ih =>
    rcases p with ⟨a, v⟩
    simp only [corrLookup, corrKeys, List.map_cons, List.mem_cons]
    by_cases ha : a = k
    · subst ha
      simp
    · rw [if_neg ha]
      rw [ih]
      simp only [corrKeys]
      constructor
      · intro h hc
        rcases hc with hc | hc
        · exact ha hc.symm
        · exact h hc
      · intro h hc
        exact h (Or.inr hc)

/-- A successful lookup exhibits a binding of the map. -/
theorem corrLookup_mem {k v : Nat} {c : Corr} (h : corrLookup k c = some v) :
    (k, v) ∈ c := by
  induction c with
  | nil => simp [corrLookup] at h
  | cons p c ih =>
    rcases p with ⟨a, w⟩
    simp only [corrLookup] at h
    by_cases ha : a = k
    · subst ha
      rw [if_pos rfl] at h
      injection h with h
      subst h
      exact List.mem_cons_self _ _
    · rw [if_neg ha] at h
      exact List.mem_cons_of_mem _ (ih h)

/-- A successful lookup puts the key in the key set. -/
theorem corrLookup_some_mem_keys {k v : Nat} {c : Corr}
    (h : corrLookup k c = some v) : k ∈ corrKeys c := by
  have := corrLookup_mem h
  simp only [corrKeys, List.mem_map]
  exact ⟨(k, v), this, rfl⟩

/-- A key of the map has a successful lookup. -/
theorem mem_keys_exists_lookup {k : Nat} {c : Corr} (h : k ∈ corrKeys c) :
    ∃ v, corrLookup k c = some v := by
  cases hl : corrLookup k c with
  | none => exact absurd h ((corrLookup_none_iff k c).mp hl)
  | some v => exact ⟨v, rfl⟩

/-- A duplicate-free list of indices below `L` has at most `L` entries. -/
theorem nodup_bounded_length_le {l : List Nat} {L : Nat} (hn : l.Nodup)
    (hb : ∀ j ∈ l, j < L) : l.length ≤ L := by
  have h1 : l.toFinset.card = l.length := List.toFinset_card_of_nodup hn
  have h2 : l.toFinset ⊆ Finset.range L := by
    intro x hx
    simp only [List.mem_toFinset] at hx
    simp only [Finset.mem_range]
    exact hb x hx
  have h3 := Finset.card_le_card h2
  simp only [Finset.card_range] at h3
  omega

/-- A rib has at most three reference fields. -/
theorem childRefs_length_le (r : Rib) : (childRefs r).length ≤ 3 := by
  rcases r with ⟨f, m, l⟩
  simp only [childRefs, List.length_append]
  rcases f with _ | _ <;> rcases m with _ | _ <;> rcases l with _ | _ <;> simp

/-- A reference in `first` is a child. -/
theorem mem_childRefs_first {r : Rib} {i : Nat} (h : r.first = RibField.Rib i) :
    i ∈ childRefs r := by
  simp [childRefs, h]

/-- A reference in `middle` is a child. -/
theorem mem_childRefs_middle {r : Rib} {i : Nat} (h : r.middle = RibField.Rib i) :
    i ∈ childRefs r := by
  simp [childRefs, h]

/-- A reference in `last` is a child. -/
theorem mem_childRefs_last {r : Rib} {i : Nat} (h : r.last = RibField.Rib i) :
    i ∈ childRefs r := by
  simp [childRefs, h]

/-- Reachable indices stay inside a closed key set containing the start. -/
theorem reaches_mem_of_closed {heap : Heap} {K : List Nat} (hc : KeysClosed heap K)
    {a b : Nat} (hr : Reaches heap a b) (ha : a ∈ K) : b ∈ K := by
  induction hr with
  | refl => exact ha
  | step _ hget hmem ih => exact hc _ ih _ hget _ hmem

/-- The keys of a map with one more binding. -/
theorem corrKeys_cons (a b : Nat) (c : Corr) :
    corrKeys ((a, b) :: c) = a :: corrKeys c := rfl

/-- Invariant lemma for the work-list loop of `scan_and_sweep`: with enough
fuel, from a duplicate-free in-bounds map whose pending indices are
reachable from the root `r0`, the loop terminates and produces a map whose
key set extends the old one exactly by reachable indices, is closed under
the child relation, and matches the new heap entry for entry. -/
theorem sweepLoop_spec (heap : Heap) (hcl : HeapClosed heap) (r0 : Nat) :
    ∀ (fuel idx : Nat) (list : List Nat) (nh : Heap) (c : Corr),
    3 * (heap.length - (corrKeys c).length) + list.length + 1 ≤ fuel →
    (corrKeys c).Nodup →
    (∀ k ∈ corrKeys c, k < heap.length) →
    idx < heap.length →
    (∀ j ∈ list, j < heap.length) →
    Reaches heap r0 idx →
    (∀ j ∈ list, Reaches heap r0 j) →
    (∀ k ∈ corrKeys c, ∀ r, heap.get? k = some r →
      ∀ j ∈ childRefs r, j ∈ corrKeys c ∨ j = idx ∨ j ∈ list) →
    (∀ p ∈ c, Prod.snd p < nh.length) →
    nh.length = c.length →
    (list ≠ [] → list.getLast? = some r0) →
    (r0 ∈ corrKeys c ∨ idx = r0) →
    (list = [] → idx = r0 ∧ r0 ∈ corrKeys c) →
    3 ≤ nh.length →
    (∀ r ∈ nh.drop 3, ∃ k ∈ corrKeys c, heap.get? k = some r) →
    ∃ nh' c', sweepLoop heap fuel idx list nh c = some (nh', c') ∧
      (∀ k ∈ corrKeys c, k ∈ corrKeys c') ∧
      (corrKeys c').Nodup ∧
      (∀ k ∈ corrKeys c', k < heap.length) ∧
      (∀ k ∈ corrKeys c', k ∈ corrKeys c ∨ Reaches heap r0 k) ∧
      r0 ∈ corrKeys c' ∧
      KeysClosed heap (corrKeys c') ∧
      (∀ p ∈ c', Prod.snd p < nh'.length) ∧
      nh'.length = c'.length ∧
      nh'.take 3 = nh.take 3 ∧
      3 ≤ nh'.length ∧
      (∀ r ∈ nh'.drop 3, ∃ k ∈ corrKeys c', heap.get? k = some r) := by
  intro fuel
  induction fuel with
  | zero =>
    intro idx list nh c hfuel
    intro _ _ _ _ _ _ _ _ _ _ _ _ _ _
    omega
  | succ fuel ih =>
    intro idx list nh c hfuel hnodup hkb hib hlb hir hlr hclose hvb hlen hlast hstart hempty htake hprov
    rcases list with _ | ⟨x, xs⟩
    · obtain ⟨hidx_r0, hr0mem⟩ := hempty rfl
      refine ⟨nh, c, rfl, fun k hk => hk, hnodup, hkb, fun k hk => Or.inl hk, hr0mem,
        ?_, hvb, hlen, rfl, htake, hprov⟩
      intro k hk r hr j hj
      rcases hclose k hk r hr j hj with h | h | h
      · exact h
      · rw [h, hidx_r0]
        exact hr0mem
      · exact absurd h (List.not_mem_nil j)
    · cases hl : corrLookup idx c with
      | some v =>
        have hidxmem : idx ∈ corrKeys c := corrLookup_some_mem_keys hl
        have hr0mem : r0 ∈ corrKeys c := by
          rcases hstart with h | h
          · exact h
          · rw [← h]
            exact hidxmem
        have hstep : sweepLoop heap (Nat.succ fuel) idx (x :: xs) nh c =
            sweepLoop heap fuel x xs nh c := by
          simp only [sweepLoop, hl]
        have hxslast : xs ≠ [] → xs.getLast? = some r0 := by
          intro hne
          rcases xs with _ | ⟨y, ys⟩
          · exact absurd rfl hne
          · exact hlast (by simp)
        have hxsempty : xs = [] → x = r0 ∧ r0 ∈ corrKeys c := by
          intro h0
          subst h0
          have := hlast (by simp)
          simp only [List.getLast?_singleton, Option.some_inj] at this
          exact ⟨this, hr0mem⟩
        have hres := ih x xs nh c
          (by
            have hf2 := hfuel
            simp only [List.length_cons] at hf2
            omega)
          hnodup hkb
          (hlb x (List.mem_cons_self x xs))
          (fun j hj => hlb j (List.mem_cons_of_mem x hj))
          (hlr x (List.mem_cons_self x xs))
          (fun j hj => hlr j (List.mem_cons_of_mem x hj))
          (by
            intro k hk r hr j hj
            rcases hclose k hk r hr j hj with h | h | h
            · exact Or.inl h
            · exact Or.inl (h ▸ hidxmem)
            · rcases List.mem_cons.mp h with h1 | h1
              · exact Or.inr (Or.inl h1)
              · exact Or.inr (Or.inr h1))
          hvb hlen hxslast (Or.inl hr0mem) hxsempty htake hprov
        rw [hstep]
        exact hres
      | none =>
        have hidxnot : idx ∉ corrKeys c := (corrLookup_none_iff _ _).mp hl
        obtain ⟨r, hr⟩ : ∃ r, heap.get? idx = some r :=
          ⟨heap.get ⟨idx, hib⟩, List.get?_eq_get hib⟩
        rcases hp : ((childRefs r).filter (fun j => (corrLookup j c).isNone)).reverse ++ x :: xs
          with _ | ⟨n1, rest1⟩
        · exact absurd hp (by simp)
        · have hpush_mem : ∀ j ∈ n1 :: rest1, j < heap.length ∧ Reaches heap r0 j := by
            intro j hj
            rw [← hp] at hj
            rcases List.mem_append.mp hj with hj | hj
            · have hj2 : j ∈ (childRefs r).filter (fun j => (corrLookup j c).isNone) :=
                List.mem_reverse.mp hj
              have hj3 : j ∈ childRefs r := (List.mem_filter.mp hj2).1
              exact ⟨hcl idx r hr j hj3, Reaches.step hir hr hj3⟩
            · exact ⟨hlb j hj, hlr j hj⟩
          have hstep : sweepLoop heap (Nat.succ fuel) idx (x :: xs) nh c =
              sweepLoop heap fuel n1 rest1 (nh ++ [r]) ((idx, nh.length) :: c) := by
            simp only [sweepLoop, hl, hr, hp]
          have hKlt : (corrKeys c).length + 1 ≤ heap.length := by
            have hn2 : (idx :: corrKeys c).Nodup := List.nodup_cons.mpr ⟨hidxnot, hnodup⟩
            have hb2 : ∀ j ∈ idx :: corrKeys c, j < heap.length := by
              intro j hj
              rcases List.mem_cons.mp hj with h | h
              · exact h ▸ hib
              · exact hkb j h
            have := nodup_bounded_length_le hn2 hb2
            simp only [List.length_cons] at this
            omega
          have hfl : ((childRefs r).filter (fun j => (corrLookup j c).isNone)).length ≤ 3 :=
            le_trans (List.length_filter_le _ _) (childRefs_length_le r)
          have hrl : rest1.length + 1 =
              ((childRefs r).filter (fun j => (corrLookup j c).isNone)).length +
                (xs.length + 1) := by
            have := congrArg List.length hp
            simp only [List.length_append, List.length_reverse, List.length_cons] at this
            omega
          have hplast : (n1 :: rest1).getLast? = some r0 := by
            rw [← hp]
            rw [List.getLast?_append_of_ne_nil _ (by simp)]
            exact hlast (by simp)
          have hr0mem1 : r0 ∈ corrKeys ((idx, nh.length) :: c) := by
            rw [corrKeys_cons]
            rcases hstart with h | h
            · exact List.mem_cons_of_mem _ h
            · exact h ▸ List.mem_cons_self _ _
          have hres := ih n1 rest1 (nh ++ [r]) ((idx, nh.length) :: c)
            (by
              rw [corrKeys_cons]
              have hf2 := hfuel
              simp only [List.length_cons] at hf2
              simp only [List.length_cons]
              omega)
            (by
              rw [corrKeys_cons]
              exact List.nodup_cons.mpr ⟨hidxnot, hnodup⟩)
            (by
              rw [corrKeys_cons]
              intro k hk
              rcases List.mem_cons.mp hk with h | h
              · exact h ▸ hib
              · exact hkb k h)
            (hpush_mem n1 (List.mem_cons_self n1 rest1)).1
            (fun j hj => (hpush_mem j (List.mem_cons_of_mem n1 hj)).1)
            (hpush_mem n1 (List.mem_cons_self n1 rest1)).2
            (fun j hj => (hpush_mem j (List.mem_cons_of_mem n1 hj)).2)
            (by
              rw [corrKeys_cons]
              intro k hk r2 hr2 j hj
              have hmemtrans : j ∈ ((childRefs r).filter
                  (fun j => (corrLookup j c).isNone)).reverse ++ x :: xs →
                  j = n1 ∨ j ∈ rest1 := by
                intro hjj
                rw [hp] at hjj
                exact List.mem_cons.mp hjj
              rcases List.mem_cons.mp hk with hkk | hkk
              · subst hkk
                rw [hr] at hr2
                injection hr2 with hrr
                subst hrr
                cases hlj : corrLookup j c with
                | none =>
                  have : j ∈ ((childRefs r).filter (fun j => (corrLookup j c).isNone)) :=
                    List.mem_filter.mpr ⟨hj, by rw [hlj]; rfl⟩
                  have := hmemtrans (List.mem_append.mpr (Or.inl (List.mem_reverse.mpr this)))
                  rcases this with h | h
                  · exact Or.inr (Or.inl h)
                  · exact Or.inr (Or.inr h)
                | some w =>
                  exact Or.inl (List.mem_cons_of_mem _ (corrLookup_some_mem_keys hlj))
              · rcases hclose k hkk r2 hr2 j hj with h | h | h
                · exact Or.inl (List.mem_cons_of_mem _ h)
                · exact Or.inl (h ▸ List.mem_cons_self _ _)
                · have := hmemtrans (List.mem_append.mpr (Or.inr h))
                  rcases this with h1 | h1
                  · exact Or.inr (Or.inl h1)
                  · exact Or.inr (Or.inr h1))
            (by
              intro p hpc
              rcases List.mem_cons.mp hpc with h | h
              · rw [h]
                simp
              · have := hvb p h
                simp only [List.length_append, List.length_singleton]
                omega)
            (by
              simp only [List.length_append, List.length_singleton, List.length_cons,
                List.length_nil]
              omega)
            (by
              intro hne
              rcases rest1 with _ | ⟨y, ys⟩
              · exact absurd rfl hne
              · exact hplast)
            (Or.inl hr0mem1)
            (by
              intro h0
              subst h0
              simp only [List.getLast?_singleton, Option.some_inj] at hplast
              exact ⟨hplast, hr0mem1⟩)
            (by
              simp only [List.length_append, List.length_singleton]
              omega)
            (by
              intro r2 hr2
              rw [List.drop_append_of_le_length htake] at hr2
              rcases List.mem_append.mp hr2 with h | h
              · obtain ⟨k, hk1, hk2⟩ := hprov r2 h
                exact ⟨k, List.mem_cons_of_mem _ hk1, hk2⟩
              · rw [List.mem_singleton] at h
                subst h
                exact ⟨idx, by rw [corrKeys_cons]; exact List.mem_cons_self _ _, hr⟩)
          obtain ⟨nh', c', ha, hmono, hnodup', hkb', hsound', hr0', hclosed', hvb', hlen',
            htake', h3le', hprov'⟩ := hres
          refine ⟨nh', c', by rw [hstep]; exact ha, ?_, hnodup', hkb', ?_, hr0', hclosed',
            hvb', hlen', ?_, h3le', hprov'⟩
          · intro k hk
            exact hmono k (by rw [corrKeys_cons]; exact List.mem_cons_of_mem _ hk)
          · intro k hk
            rcases hsound' k hk with h | h
            · rw [corrKeys_cons] at h
              rcases List.mem_cons.mp h with h1 | h1
              · exact Or.inr (h1 ▸ hir)
              · exact Or.inl h1
            · exact Or.inr h
          · rw [htake', List.take_append_of_le_length htake]

/-- Specification of one `scan_and_sweep` call: with enough fuel, starting
from a duplicate-free, in-bounds, child-closed map matching the new heap, it
succeeds and extends the key set exactly by the indices reachable from the
root. -/
theorem scan_and_sweep_spec (heap : Heap) (hcl : HeapClosed heap) (r0 : Nat)
    (fuel : Nat) (nh : Heap) (c : Corr)
    (hfuel : 3 * heap.length + 2 ≤ fuel)
    (hnodup : (corrKeys c).Nodup)
    (hkb : ∀ k ∈ corrKeys c, k < heap.length)
    (hr0 : r0 < heap.length)
    (hclosed : KeysClosed heap (corrKeys c))
    (hvb : ∀ p ∈ c, Prod.snd p < nh.length)
    (hlen : nh.length = c.length)
    (htake : 3 ≤ nh.length)
    (hprov : ∀ r ∈ nh.drop 3, ∃ k ∈ corrKeys c, heap.get? k = some r) :
    ∃ r1 nh' c', scan_and_sweep heap fuel r0 nh c = some (r1, nh', c') ∧
      (∀ k ∈ corrKeys c, k ∈ corrKeys c') ∧
      (corrKeys c').Nodup ∧
      (∀ k ∈ corrKeys c', k < heap.length) ∧
      (∀ k ∈ corrKeys c', k ∈ corrKeys c ∨ Reaches heap r0 k) ∧
      (∀ k, Reaches heap r0 k → k ∈ corrKeys c') ∧
      KeysClosed heap (corrKeys c') ∧
      (∀ p ∈ c', Prod.snd p < nh'.length) ∧
      nh'.length = c'.length ∧
      nh'.take 3 = nh.take 3 ∧
      3 ≤ nh'.length ∧
      (∀ r ∈ nh'.drop 3, ∃ k ∈ corrKeys c', heap.get? k = some r) := by
  cases hl : corrLookup r0 c with
  | some v =>
    have hvlt : v < nh.length := hvb (r0, v) (corrLookup_mem hl)
    have hr0mem : r0 ∈ corrKeys c := corrLookup_some_mem_keys hl
    have heq : scan_and_sweep heap fuel r0 nh c = some (v, nh, c) := by
      simp only [scan_and_sweep, hl]
      rw [if_pos (by omega)]
    refine ⟨v, nh, c, heq, fun k hk => hk, hnodup, hkb, fun k hk => Or.inl hk,
      ?_, hclosed, hvb, hlen, rfl, htake, hprov⟩
    intro k hk
    exact reaches_mem_of_closed hclosed hk hr0mem
  | none =>
    obtain ⟨nh', c', ha, hmono, hnodup', hkb', hsound', hr0', hclosed', hvb', hlen',
        htake', h3le', hprov'⟩ :=
      sweepLoop_spec heap hcl r0 fuel r0 [r0] nh c
        (by
          simp only [List.length_singleton]
          omega)
        hnodup hkb hr0
        (by
          intro j hj
          rw [List.mem_singleton] at hj
          exact hj ▸ hr0)
        (Reaches.refl r0)
        (by
          intro j hj
          rw [List.mem_singleton] at hj
          rw [hj]
          exact Reaches.refl r0)
        (by
          intro k hk r hr j hj
          exact Or.inl (hclosed k hk r hr j hj))
        hvb hlen (fun _ => rfl) (Or.inr rfl)
        (fun h => absurd h (List.cons_ne_nil r0 []))
        htake hprov
    have heq : scan_and_sweep heap fuel r0 nh c = some (nh.length, nh', c') := by
      simp only [scan_and_sweep, hl]
      rw [if_neg (by simp)]
      rw [ha]
    refine ⟨nh.length, nh', c', heq, hmono, hnodup', hkb', hsound', ?_, hclosed',
      hvb', hlen', htake', h3le', hprov'⟩
    intro k hk
    exact reaches_mem_of_closed hclosed' hk hr0'

/-- The rewrite of a rib succeeds when every child has a forwarding entry. -/
theorem rewriteRib_total {c : Corr} {r : Rib}
    (h : ∀ j ∈ childRefs r, ∃ v, corrLookup j c = some v) :
    ∃ r', rewriteRib c r = some r' := by
  rcases r with ⟨f, m, l⟩
  have hf : ∃ f', rewriteField c f = some f' := by
    cases f with
    | Number n => exact ⟨RibField.Number n, rfl⟩
    | Rib i =>
      obtain ⟨v, hv⟩ := h i (mem_childRefs_first rfl)
      exact ⟨RibField.Rib v, by simp [rewriteField, hv]⟩
  have hm : ∃ m', rewriteField c m = some m' := by
    cases m with
    | Number n => exact ⟨RibField.Number n, rfl⟩
    | Rib i =>
      obtain ⟨v, hv⟩ := h i (mem_childRefs_middle rfl)
      exact ⟨RibField.Rib v, by simp [rewriteField, hv]⟩
  have hl2 : ∃ l', rewriteField c l = some l' := by
    cases l with
    | Number n => exact ⟨RibField.Number n, rfl⟩
    | Rib i =>
      obtain ⟨v, hv⟩ := h i (mem_childRefs_last rfl)
      exact ⟨RibField.Rib v, by simp [rewriteField, hv]⟩
  obtain ⟨f', hf⟩ := hf
  obtain ⟨m', hm⟩ := hm
  obtain ⟨l', hl2⟩ := hl2
  exact ⟨⟨f', m', l'⟩, by simp [rewriteRib, hf, hm, hl2]⟩

/-- The rewrite pass succeeds, preserving length, when every child of every
rib to rewrite has a forwarding entry. -/
theorem rewriteTail_total (c : Corr) :
    ∀ (l : Heap), (∀ r ∈ l, ∀ j ∈ childRefs r, ∃ v, corrLookup j c = some v) →
    ∃ l', rewriteTail c l = some l' ∧ l'.length = l.length := by
  intro l
  induction l with
  | nil => exact fun _ => ⟨[], rfl, rfl⟩
  | cons r rest ih =>
    intro h
    obtain ⟨r', hr'⟩ := rewriteRib_total (h r (List.mem_cons_self r rest))
    obtain ⟨rest', hrest', hlen⟩ := ih (fun x hx => h x (List.mem_cons_of_mem r hx))
    refine ⟨r' :: rest', ?_, by simp [hlen]⟩
    simp only [rewriteTail, hr', hrest']

/-- C2 amended: on a well-formed heap (three singleton cells at indices 0, 1,
2, all reference fields in bounds, in-bounds roots), the collector succeeds;
the new heap again holds the three singletons at indices 0, 1, 2; the
returned size is the new heap's length; and that length counts exactly the
ribs relocated by the collector, which are the three singleton indices
together with every index reachable from the roots (symbol table, program
counter, stack) — an old rib is forwarded into the new heap if and only if
it is a singleton or reachable from one of the three roots. -/
theorem garbage_collect_spec (heap : Heap) (stack pc symtbl fuel : Nat)
    (hlen3 : 3 ≤ heap.length)
    (h0 : heap.get? 0 = some SPECIAL_RIB)
    (h1 : heap.get? 1 = some SPECIAL_RIB)
    (h2 : heap.get? 2 = some SPECIAL_RIB)
    (hcl : HeapClosed heap)
    (hst : stack < heap.length) (hpc : pc < heap.length) (hsy : symtbl < heap.length)
    (hfuel : 3 * heap.length + 2 ≤ fuel) :
    ∃ nh st1 pc1 sy1 ret c,
      garbage_collect heap stack pc symtbl fuel = some (nh, st1, pc1, sy1, ret, c) ∧
      nh.get? 0 = some SPECIAL_RIB ∧
      nh.get? 1 = some SPECIAL_RIB ∧
      nh.get? 2 = some SPECIAL_RIB ∧
      ret = nh.length ∧
      (corrKeys c).Nodup ∧
      ret = (corrKeys c).length ∧
      (∀ k, k ∈ corrKeys c ↔
        (k = 0 ∨ k = 1 ∨ k = 2 ∨ Reaches heap symtbl k ∨ Reaches heap pc k ∨
          Reaches heap stack k)) := by
  have hcr : childRefs SPECIAL_RIB = [] := rfl
  have hkeys0 : corrKeys [(2, 2), (1, 1), (0, 0)] = [2, 1, 0] := rfl
  have hclosed0 : KeysClosed heap (corrKeys [(2, 2), (1, 1), (0, 0)]) := by
    intro k hk r hr j hj
    rw [hkeys0] at hk
    have hk3 : k = 2 ∨ k = 1 ∨ k = 0 := by simpa using hk
    rcases hk3 with rfl | rfl | rfl
    · rw [h2] at hr
      injection hr with hr
      rw [← hr, hcr] at hj
      exact absurd hj (List.not_mem_nil j)
    · rw [h1] at hr
      injection hr with hr
      rw [← hr, hcr] at hj
      exact absurd hj (List.not_mem_nil j)
    · rw [h0] at hr
      injection hr with hr
      rw [← hr, hcr] at hj
      exact absurd hj (List.not_mem_nil j)
  obtain ⟨sy1, nhA, cA, heqA, monoA, nodupA, kbA, soundA, compA, closedA, vbA, lenA,
      takeA, le3A, provA⟩ :=
    scan_and_sweep_spec heap hcl symtbl fuel
      [SPECIAL_RIB, SPECIAL_RIB, SPECIAL_RIB] [(2, 2), (1, 1), (0, 0)]
      hfuel (by decide)
      (by
        intro k hk
        rw [hkeys0] at hk
        have : k = 2 ∨ k = 1 ∨ k = 0 := by simpa using hk
        omega)
      hsy hclosed0
      (by
        intro p hp
        have : p = (2, 2) ∨ p = (1, 1) ∨ p = (0, 0) := by simpa using hp
        rcases this with rfl | rfl | rfl <;> simp)
      rfl (by simp)
      (by
        intro r hr
        simp at hr)
  obtain ⟨pc1, nhB, cB, heqB, monoB, nodupB, kbB, soundB, compB, closedB, vbB, lenB,
      takeB, le3B, provB⟩ :=
    scan_and_sweep_spec heap hcl pc fuel nhA cA
      hfuel nodupA kbA hpc closedA vbA lenA le3A provA
  obtain ⟨st1, nhC, cC, heqC, monoC, nodupC, kbC, soundC, compC, closedC, vbC, lenC,
      takeC, le3C, provC⟩ :=
    scan_and_sweep_spec heap hcl stack fuel nhB cB
      hfuel nodupB kbB hst closedB vbB lenB le3B provB
  have hchild : ∀ r ∈ nhC.drop 3, ∀ j ∈ childRefs r, ∃ v, corrLookup j cC = some v := by
    intro r hr j hj
    obtain ⟨k, hk, hget⟩ := provC r hr
    exact mem_keys_exists_lookup (closedC k hk r hget j hj)
  obtain ⟨tail, htail, htlen⟩ := rewriteTail_total cC (nhC.drop 3) hchild
  have hgc : garbage_collect heap stack pc symtbl fuel =
      some (nhC.take 3 ++ tail, st1, pc1, sy1, nhC.length, cC) := by
    simp only [garbage_collect, h0, h1, h2, hsy, hpc, hst, if_true, heqA, heqB, heqC,
      htail]
  have htake3 : nhC.take 3 = [SPECIAL_RIB, SPECIAL_RIB, SPECIAL_RIB] := by
    rw [takeC, takeB, takeA]
    rfl
  have hdroplen : (nhC.drop 3).length = nhC.length - 3 := List.length_drop 3 nhC
  refine ⟨nhC.take 3 ++ tail, st1, pc1, sy1, nhC.length, cC, hgc, ?_, ?_, ?_, ?_,
    nodupC, ?_, ?_⟩
  · rw [htake3]
    rfl
  · rw [htake3]
    rfl
  · rw [htake3]
    rfl
  · have h3 : (nhC.take 3).length = 3 := by
      rw [htake3]
      rfl
    simp only [List.length_append, h3, htlen, hdroplen]
    omega
  · rw [lenC]
    simp [corrKeys]
  · intro k
    constructor
    · intro hk
      rcases soundC k hk with hk2 | hk2
      · rcases soundB k hk2 with hk3 | hk3
        · rcases soundA k hk3 with hk4 | hk4
          · rw [hkeys0] at hk4
            have : k = 2 ∨ k = 1 ∨ k = 0 := by simpa using hk4
            rcases this with rfl | rfl | rfl
            · exact Or.inr (Or.inr (Or.inl rfl))
            · exact Or.inr (Or.inl rfl)
            · exact Or.inl rfl
          · exact Or.inr (Or.inr (Or.inr (Or.inl hk4)))
        · exact Or.inr (Or.inr (Or.inr (Or.inr (Or.inl hk3))))
      · exact Or.inr (Or.inr (Or.inr (Or.inr (Or.inr hk2))))
    · intro hk
      rcases hk with rfl | rfl | rfl | hk | hk | hk
      · exact monoC _ (monoB _ (monoA _ (by rw [hkeys0]; simp)))
      · exact monoC _ (monoB _ (monoA _ (by rw [hkeys0]; simp)))
      · exact monoC _ (monoB _ (monoA _ (by rw [hkeys0]; simp)))
      · exact monoC _ (monoB _ (compA k hk))
      · exact monoC _ (compB k hk)
      · exact compC k hk

/-- A decidable sufficient condition for `HeapClosed` on a concrete heap. -/
theorem heapClosed_of_all (heap : Heap)
    (h : heap.all (fun r => (childRefs r).all (fun j => decide (j < heap.length))) = true) :
    HeapClosed heap := by
  intro i r hi j hj
  have hr : r ∈ heap := List.get?_mem hi
  rw [List.all_eq_true] at h
  have h2 := h r hr
  rw [List.all_eq_true] at h2
  simpa using h2 j hj

/-- In a heap without reference fields, reachability is equality. -/
theorem reaches_eq_of_no_children (heap : Heap)
    (h : ∀ i r, heap.get? i = some r → childRefs r = []) :
    ∀ a b, Reaches heap a b → a = b := by
  intro a b hr
  induction hr with
  | refl => rfl
  | step _ hget hmem ih =>
    rw [h _ _ hget] at hmem
    exact absurd hmem (List.not_mem_nil _)

/-- A decidable sufficient condition for a heap to have no reference
fields. -/
theorem no_children_of_all (heap : Heap)
    (h : heap.all (fun r => (childRefs r).isEmpty) = true) :
    ∀ i r, heap.get? i = some r → childRefs r = [] := by
  intro i r hi
  have hr : r ∈ heap := List.get?_mem hi
  rw [List.all_eq_true] at h
  have h2 := h r hr
  rwa [List.isEmpty_iff] at h2

/-- A concrete well-formed heap: the three singletons and one rib at index 3
whose `first` references the `()` singleton. -/
def gcWitnessHeap : Heap :=
  [SPECIAL_RIB, SPECIAL_RIB, SPECIAL_RIB,
    ⟨RibField.Rib 2, RibField.Number 7, RibField.Number 0⟩]

/-- Witness for C2 at the concrete heap `gcWitnessHeap` with all three roots
at index 3 and fuel 14. -/
theorem garbage_collect_spec_witness :
    ∃ nh st1 pc1 sy1 ret c,
      garbage_collect gcWitnessHeap 3 3 3 14 = some (nh, st1, pc1, sy1, ret, c) ∧
      nh.get? 0 = some SPECIAL_RIB ∧
      nh.get? 1 = some SPECIAL_RIB ∧
      nh.get? 2 = some SPECIAL_RIB ∧
      ret = nh.length ∧
      (corrKeys c).Nodup ∧
      ret = (corrKeys c).length ∧
      (∀ k, k ∈ corrKeys c ↔
        (k = 0 ∨ k = 1 ∨ k = 2 ∨ Reaches gcWitnessHeap 3 k ∨ Reaches gcWitnessHeap 3 k ∨
          Reaches gcWitnessHeap 3 k)) :=
  garbage_collect_spec gcWitnessHeap 3 3 3 14 (by decide) rfl rfl rfl
    (heapClosed_of_all _ (by decide)) (by decide) (by decide) (by decide) (by decide)

/-- A concrete heap where the singletons `#t` at index 1 (and the others)
are unreachable from the roots: the only root points at the childless rib at
index 3. -/
def gcCexHeap : Heap :=
  [SPECIAL_RIB, SPECIAL_RIB, SPECIAL_RIB,
    ⟨RibField.Number 0, RibField.Number 0, RibField.Number 0⟩]

/-- C2 as stated is false: on `gcCexHeap` with all three roots at index 3,
the collector returns 4 although exactly one rib (index 3 itself) is
reachable from the three roots, and the singleton at index 1 is forwarded
into the new heap although it is reachable from no root. -/
theorem garbage_collect_counterexample :
    garbage_collect gcCexHeap 3 3 3 20 =
      some (gcCexHeap, 3, 3, 3, 4, [(3, 3), (2, 2), (1, 1), (0, 0)]) ∧
    1 ∈ corrKeys [(3, 3), (2, 2), (1, 1), (0, 0)] ∧
    ¬ Reaches gcCexHeap 3 1 ∧
    (∀ k, Reaches gcCexHeap 3 k → k = 3) := by
  have hnc : ∀ i r, gcCexHeap.get? i = some r → childRefs r = [] :=
    no_children_of_all gcCexHeap (by decide)
  refine ⟨by rfl, by decide, ?_, ?_⟩
  · intro h
    have := reaches_eq_of_no_children gcCexHeap hnc 3 1 h
    exact absurd this (by decide)
  · intro k h
    exact (reaches_eq_of_no_children gcCexHeap hnc 3 k h).symm
